import Mathlib

/-!
Verification of the agent-shop task scheduler and pipeline orchestration engine.

The definitions below are shallow embeddings of the Python source:
* `Task`, `load_tasks`          — task_manager.py (plan loading and validation)
* `get_ready_tasks`             — task_manager.py (dependency and isolation resolver)
* `parse_review`                — reviewer.py `ReviewAgent._parse_review`
* `review_fix_merge_sync`       — orchestrator.py `_review_fix_merge_sync`
* `dry_run_plan_waves`          — orchestrator.py `dry_run_plan`
* `path_is_authorized`          — worker.py `Worker._path_is_authorized`
* `OState`, `Step`, `Reachable` — orchestrator.py `orchestrate` loop state and events

Python `set[str]` values are modelled as `Finset String`; dictionaries keyed by
task id are modelled by their key sets plus (for retry counts) a total function
with default 0, matching `dict.get(tid, 0)`.
-/

namespace AgentShop

/-- worker.py `Task` dataclass: one unit of work loaded from a plan. -/
structure Task where
  id : String
  title : String
  description : String
  files_touched : List String
  depends_on : List String
  priority : Int
  max_turns : Nat
  model : String
deriving DecidableEq, Repr

/-- Insertion step of a stable sort on the `priority` key: the new element is
placed before the first strictly greater priority, hence after all elements
with equal priority that are already in the list. -/
def insertByPriority (t : Task) : List Task → List Task
  | [] => [t]
  | u :: rest =>
    if u.priority < t.priority then u :: insertByPriority t rest
    else t :: u :: rest

/-- Stable sort by ascending `priority`, modelling Python's stable
`list.sort(key=lambda t: t.priority)`. -/
def sortByPriority : List Task → List Task
  | [] => []
  | t :: rest => insertByPriority t (sortByPriority rest)

/-- Eligibility test of task_manager.py `get_ready_tasks`: not completed, all
dependencies completed, and no touched file currently locked. -/
def readyb (completed_ids active_files : Finset String) (t : Task) : Bool :=
  !(decide (t.id ∈ completed_ids)) &&
  (t.depends_on.all fun d => decide (d ∈ completed_ids)) &&
  !(t.files_touched.any fun f => decide (f ∈ active_files))

/-- task_manager.py `get_ready_tasks`: filter the eligible tasks, then sort
stably by ascending priority. -/
def get_ready_tasks (tasks : List Task) (completed_ids active_files : Finset String) :
    List Task :=
  sortByPriority (tasks.filter (readyb completed_ids active_files))

theorem readyb_iff (completed_ids active_files : Finset String) (t : Task) :
    readyb completed_ids active_files t = true ↔
      t.id ∉ completed_ids ∧ (∀ d ∈ t.depends_on, d ∈ completed_ids) ∧
      (∀ f ∈ t.files_touched, f ∉ active_files) := by
  simp [readyb, List.all_eq_true, List.any_eq_true, and_assoc]

theorem mem_insertByPriority (t a : Task) (l : List Task) :
    a ∈ insertByPriority t l ↔ a = t ∨ a ∈ l := by
  induction l with
  | nil => simp [insertByPriority]
  | cons u rest ih =>
    by_cases h : u.priority < t.priority
    · simp only [insertByPriority, if_pos h, List.mem_cons, ih]
      tauto
    · simp only [insertByPriority, if_neg h, List.mem_cons]

theorem mem_sortByPriority (a : Task) (l : List Task) :
    a ∈ sortByPriority l ↔ a ∈ l := by
  induction l with
  | nil => simp [sortByPriority]
  | cons t rest ih =>
    simp [sortByPriority, mem_insertByPriority, ih]

theorem pairwise_insertByPriority (t : Task) (l : List Task)
    (h : l.Pairwise fun a b => a.priority ≤ b.priority) :
    (insertByPriority t l).Pairwise fun a b => a.priority ≤ b.priority := by
  induction l with
  | nil => simp [insertByPriority]
  | cons u rest ih =>
    rcases List.pairwise_cons.mp h with ⟨hu, hrest⟩
    by_cases hlt : u.priority < t.priority
    · simp only [insertByPriority, if_pos hlt]
      refine List.pairwise_cons.mpr ⟨?_, ih hrest⟩
      intro b hb
      rcases (mem_insertByPriority t b rest).mp hb with rfl | hb
      · exact le_of_lt hlt
      · exact hu b hb
    · simp only [insertByPriority, if_neg hlt]
      have hle : t.priority ≤ u.priority := not_lt.mp hlt
      refine List.pairwise_cons.mpr ⟨?_, h⟩
      intro b hb
      rcases List.mem_cons.mp hb with rfl | hb
      · exact hle
      · exact le_trans hle (hu b hb)

theorem pairwise_sortByPriority (l : List Task) :
    (sortByPriority l).Pairwise fun a b => a.priority ≤ b.priority := by
  induction l with
  | nil => simp [sortByPriority]
  | cons t rest ih => exact pairwise_insertByPriority t _ ih

theorem filter_insertByPriority (t : Task) (l : List Task) (k : Int) :
    (insertByPriority t l).filter (fun u => decide (u.priority = k)) =
      if t.priority = k then t :: l.filter (fun u => decide (u.priority = k))
      else l.filter (fun u => decide (u.priority = k)) := by
  induction l with
  | nil => by_cases h : t.priority = k <;> simp [insertByPriority, h]
  | cons u rest ih =>
    by_cases hlt : u.priority < t.priority
    · simp only [insertByPriority, if_pos hlt]
      by_cases htk : t.priority = k
      · have huk : ¬ u.priority = k := by
          intro h; rw [h] at hlt; rw [htk] at hlt; exact lt_irrefl k hlt
        simp [List.filter_cons, huk, ih, htk]
      · simp [List.filter_cons, ih, htk]
    · simp only [insertByPriority, if_neg hlt]
      by_cases htk : t.priority = k <;> simp [List.filter_cons, htk]

theorem filter_sortByPriority (l : List Task) (k : Int) :
    (sortByPriority l).filter (fun u => decide (u.priority = k)) =
      l.filter (fun u => decide (u.priority = k)) := by
  induction l with
  | nil => simp [sortByPriority]
  | cons t rest ih =>
    by_cases htk : t.priority = k <;>
      simp [sortByPriority, filter_insertByPriority, htk, List.filter_cons, ih]

theorem mem_get_ready_tasks (tasks : List Task) (completed_ids active_files : Finset String)
    (t : Task) :
    t ∈ get_ready_tasks tasks completed_ids active_files ↔
      t ∈ tasks ∧ t.id ∉ completed_ids ∧ (∀ d ∈ t.depends_on, d ∈ completed_ids) ∧
      (∀ f ∈ t.files_touched, f ∉ active_files) := by
  rw [get_ready_tasks, mem_sortByPriority, List.mem_filter, readyb_iff]

/-!  task_manager.py `load_tasks`: plan loading and validation.  An entry of the
YAML list is modelled, after the `.get` defaults have been applied, as a `Task`
value; `load_tasks` validates id uniqueness and dependency resolution. -/

/-- First pass of task_manager.py `load_tasks`: walk the entries, tracking the
`seen_ids` set and failing on the first duplicate id. -/
def load_tasks_go : List Task → Finset String → Except String (List Task)
  | [], _ => .ok []
  | e :: rest, seen =>
    if e.id ∈ seen then .error ("Duplicate task ID: " ++ e.id)
    else (load_tasks_go rest (insert e.id seen)).map (fun ts => e :: ts)

/-- Second pass of task_manager.py `load_tasks`: first dependency reference, in
scan order, that does not name a task of the batch. -/
def find_bad_dep (tasks : List Task) (all_ids : Finset String) :
    Option (String × String) :=
  tasks.findSome? fun t =>
    (t.depends_on.find? fun d => decide (d ∉ all_ids)).map fun d => (t.id, d)

/-- task_manager.py `load_tasks`: reject an empty (or absent) task list, then
reject duplicate ids, then reject unresolved `depends_on` references; otherwise
return one `Task` per entry. -/
def load_tasks (raw : List Task) : Except String (List Task) :=
  if raw = [] then .error "No tasks key found in plan"
  else
    match load_tasks_go raw ∅ with
    | .error e => .error e
    | .ok tasks =>
      match find_bad_dep tasks (tasks.map Task.id).toFinset with
      | some (tid, dep) =>
          .error ("Task " ++ tid ++ " depends on " ++ dep ++ " which does not exist")
      | none => .ok tasks

theorem load_tasks_go_ok_iff (raw : List Task) (seen : Finset String) :
    (∃ ts, load_tasks_go raw seen = .ok ts) ↔
      (raw.map Task.id).Nodup ∧ ∀ t ∈ raw, t.id ∉ seen := by
  induction raw generalizing seen with
  | nil => simp [load_tasks_go]
  | cons e rest ih =>
    by_cases h : e.id ∈ seen
    · simp [load_tasks_go, h]
    · simp only [load_tasks_go, if_neg h]
      constructor
      · rintro ⟨ts, hts⟩
        match hgo : load_tasks_go rest (insert e.id seen) with
        | .error msg => rw [hgo] at hts; simp [Except.map] at hts
        | .ok ts' =>
          have := (ih (insert e.id seen)).mp ⟨ts', hgo⟩
          rw [List.map_cons, List.nodup_cons]
          refine ⟨⟨?_, this.1⟩, ?_⟩
          · intro hmem
            rcases List.mem_map.mp hmem with ⟨u, hu, hid⟩
            exact (this.2 u hu) (by rw [hid]; exact Finset.mem_insert_self _ _)
          · intro t ht
            rcases List.mem_cons.mp ht with rfl | ht
            · exact h
            · intro hts'
              exact (this.2 t ht) (Finset.mem_insert_of_mem hts')
      · intro hcond
        rw [List.map_cons, List.nodup_cons] at hcond
        obtain ⟨⟨hnotmem, hnodup⟩, hseen⟩ := hcond
        have : (∃ ts, load_tasks_go rest (insert e.id seen) = .ok ts) := by
          refine (ih (insert e.id seen)).mpr ⟨hnodup, ?_⟩
          intro t ht
          rw [Finset.mem_insert]
          push_neg
          constructor
          · intro hid
            exact hnotmem (List.mem_map.mpr ⟨t, ht, hid⟩)
          · exact hseen t (List.mem_cons_of_mem _ ht)
        rcases this with ⟨ts, hts⟩
        exact ⟨e :: ts, by rw [hts]; rfl⟩

theorem load_tasks_go_ok_eq (raw : List Task) (seen : Finset String) (ts : List Task)
    (h : load_tasks_go raw seen = .ok ts) : ts = raw := by
  induction raw generalizing seen ts with
  | nil => simp [load_tasks_go] at h; exact h
  | cons e rest ih =>
    by_cases hm : e.id ∈ seen
    · simp [load_tasks_go, hm] at h
    · simp only [load_tasks_go, if_neg hm] at h
      match hgo : load_tasks_go rest (insert e.id seen) with
      | .error msg => rw [hgo] at h; simp [Except.map] at h
      | .ok ts' =>
        rw [hgo] at h
        simp only [Except.map] at h
        cases h
        rw [ih _ _ hgo]

theorem find_bad_dep_eq_none_iff (tasks : List Task) (all_ids : Finset String) :
    find_bad_dep tasks all_ids = none ↔
      ∀ t ∈ tasks, ∀ d ∈ t.depends_on, d ∈ all_ids := by
  rw [find_bad_dep, List.findSome?_eq_none_iff]
  constructor
  · intro h t ht d hd
    have := h t ht
    by_contra hnot
    have : t.depends_on.find? (fun d => decide (d ∉ all_ids)) = none := by
      match hf : t.depends_on.find? (fun d => decide (d ∉ all_ids)) with
      | none => rfl
      | some d' => rw [hf] at this; simp [Option.map] at this
    have := List.find?_eq_none.mp this d hd
    simp at this
    exact hnot this
  · intro h t ht
    have : t.depends_on.find? (fun d => decide (d ∉ all_ids)) = none := by
      apply List.find?_eq_none.mpr
      intro d hd
      simp
      exact h t ht d hd
    rw [this]; rfl

/-!  reviewer.py `ReviewAgent._parse_review`: verdict validation, severity
normalisation, and the one-directional verdict override.  The JSON decoding is
external; the model takes the decoded verdict string and the severity strings
of the `comments` array. -/

def VALID_SEVERITIES : List String := ["error", "warning", "suggestion"]

/-- Severity normalisation of `_parse_review`: an invalid severity value is
replaced by `"suggestion"`. -/
def normalizeSeverity (s : String) : String :=
  if s ∈ VALID_SEVERITIES then s else "suggestion"

/-- reviewer.py `ReviewAgent._parse_review` on a decoded response: reject an
unexpected verdict; normalise the comment severities; then override the verdict
from `request_changes` to `approve` when no error-severity comment exists.
Returns the final verdict and the normalised severity list. -/
def parse_review (verdict : String) (severities : List String) :
    Except String (String × List String) :=
  if verdict ≠ "approve" ∧ verdict ≠ "request_changes" then
    .error ("Unexpected verdict value: " ++ verdict)
  else
    let comments := severities.map normalizeSeverity
    let has_error := comments.any fun c => decide (c = "error")
    if verdict = "request_changes" ∧ has_error = false then
      .ok ("approve", comments)
    else
      .ok (verdict, comments)

/-!  worker.py `Worker._path_is_authorized` and the unauthorized-file filter of
`Worker._enforce_file_scope`.  Python `str.endswith` is suffix testing. -/

/-- Python `s.endswith(t)`. -/
def pyEndswith (s t : String) : Bool :=
  t.data.isSuffixOf s.data

/-- worker.py `Worker._path_is_authorized`: exact match, or the allowlist entry
is a `/`-separated suffix of the changed path, or the changed path is a
`/`-separated suffix of the allowlist entry. -/
def path_is_authorized (filepath : String) (allowed : List String) : Bool :=
  decide (filepath ∈ allowed) ||
  allowed.any fun a =>
    pyEndswith filepath ("/" ++ a) || pyEndswith a ("/" ++ filepath)

/-- The unauthorized-file set computed by worker.py `Worker._enforce_file_scope`
(the files that the revert step will act on). -/
def unauthorized_files (changed allowed : List String) : List String :=
  changed.filter fun f => !(path_is_authorized f allowed)

/-!  orchestrator.py `_review_fix_merge_sync`: the review/fix/merge cycle.
External collaborators are abstracted as oracles: `reviews attempt` is the
verdict string and error-severity finding count of the review in round
`attempt`, `fixOk attempt` tells whether the fix step of that round succeeds.
Entering the approve branch (mergeability checks and the merge itself) ends
the cycle, as does every failure return. -/

/-- Outcome of the review/fix/merge cycle; `round` is the 1-based count of
review rounds that ran. -/
inductive RfmResult where
  | approvedAt (round : Nat)
  | failedAt (round : Nat)
  | fixFailedAt (round : Nat)
  | exhausted
deriving DecidableEq, Repr

/-- The `for attempt in range(abs_max_fixes + 1)` loop of
`_review_fix_merge_sync`; `fuel` is the number of remaining loop iterations,
`prev` is `prev_error_count`. -/
def review_fix_merge_aux (max_fix abs_max : Nat) (reviews : Nat → String × Nat)
    (fixOk : Nat → Bool) : Nat → Nat → Option Nat → RfmResult
  | 0, _, _ => .exhausted
  | fuel + 1, attempt, prev =>
    let r := reviews attempt
    if r.1 = "approve" then .approvedAt (attempt + 1)
    else
      let mp : Bool := match prev with
        | none => false
        | some p => decide (r.2 < p)
      if max_fix ≤ attempt ∧ (mp = false ∨ abs_max ≤ attempt) then
        .failedAt (attempt + 1)
      else if fixOk attempt = false then .fixFailedAt (attempt + 1)
      else review_fix_merge_aux max_fix abs_max reviews fixOk fuel (attempt + 1) (some r.2)

/-- orchestrator.py `_review_fix_merge_sync` with
`abs_max_fixes = max_fix_attempts + extra_attempts_buffer`. -/
def review_fix_merge_sync (max_fix buffer : Nat) (reviews : Nat → String × Nat)
    (fixOk : Nat → Bool) : RfmResult :=
  review_fix_merge_aux max_fix (max_fix + buffer) reviews fixOk (max_fix + buffer + 1) 0 none

/-- orchestrator.py `MAX_FIX_ATTEMPTS`. -/
def MAX_FIX_ATTEMPTS : Nat := 2

/-- orchestrator.py `EXTRA_FIX_ATTEMPTS_BUFFER`. -/
def EXTRA_FIX_ATTEMPTS_BUFFER : Nat := 3

/-!  orchestrator.py `dry_run_plan`: the wave simulation. -/

/-- Inner wave selection of `dry_run_plan`: walk the priority-sorted
dependency-ready tasks, admitting each task whose touched files do not
intersect the files already claimed by this wave. -/
def pickWave : List Task → Finset String → List Task
  | [], _ => []
  | t :: rest, waveFiles =>
    if t.files_touched.any fun f => decide (f ∈ waveFiles) then
      pickWave rest waveFiles
    else t :: pickWave rest (waveFiles ∪ t.files_touched.toFinset)

/-- The `while remaining` loop of `dry_run_plan`.  Returns the waves and the
ids reported as unschedulable (circular or missing dependency).  `fuel` bounds
the iterations; `tasks.length` is always enough because every iteration
schedules at least one task or stops. -/
def dryRunWavesGo : Nat → Finset String → List Task → List (List Task) × List String
  | 0, _, remaining => ([], remaining.map Task.id)
  | fuel + 1, completed, remaining =>
    if remaining = [] then ([], [])
    else
      let deps_ready := remaining.filter fun t =>
        t.depends_on.all fun d => decide (d ∈ completed)
      if deps_ready = [] then ([], remaining.map Task.id)
      else
        let wave := pickWave (sortByPriority deps_ready) ∅
        let waveIds := wave.map Task.id
        let out := dryRunWavesGo fuel (completed ∪ waveIds.toFinset)
          (remaining.filter fun t => decide (t.id ∉ waveIds))
        (wave :: out.1, out.2)

/-- orchestrator.py `dry_run_plan`, restricted to the wave simulation it
prints: the list of execution waves and the unschedulable ids. -/
def dry_run_plan_waves (tasks : List Task) : List (List Task) × List String :=
  dryRunWavesGo tasks.length ∅ tasks

/-!  orchestrator.py `orchestrate`: run state and loop events.

The control loop owns all mutable state; worker-pool code communicates only
through future results.  Each straight-line block of the loop body that
mutates the run state is one atomic event:
* `workerDone`  — lines 1296-1418: a finished execution future is collected
  (its files are released; its task enters the review pipeline, completes,
  is relaunched as a retry, or fails),
* `reviewDone`  — lines 1424-1484: a finished review/fix/merge future is
  collected (its task completes or fails),
* `advance`     — lines 1489-1522: the settled current priority group is left
  and the pointer moves to the next group,
* `dispatch`    — lines 1537-1572: the eligible tasks of the current group
  are computed once and dispatched up to the free worker slots, locking their
  files as they are dispatched. -/

/-- The per-run fixed configuration of `orchestrate` (with the defaults
`max_priority=None`, `source="plan"`). -/
structure OrchCtx where
  tasks : List Task
  max_retries : Nat
  max_workers : Nat

/-- The ids of the loaded tasks. -/
def taskIds (ctx : OrchCtx) : Finset String := (ctx.tasks.map Task.id).toFinset

/-- `next(t for t in tasks if t.id == task_id)`. -/
def taskOf (ctx : OrchCtx) (tid : String) : Option Task :=
  ctx.tasks.find? fun t => decide (t.id = tid)

/-- The `files_touched` of the task a finished future belongs to. -/
def filesOf (ctx : OrchCtx) (tid : String) : Finset String :=
  match taskOf ctx tid with
  | none => ∅
  | some t => t.files_touched.toFinset

/-- Ascending insertion for Int lists. -/
def insertInt (x : Int) : List Int → List Int
  | [] => [x]
  | y :: rest => if y < x then y :: insertInt x rest else x :: y :: rest

/-- Ascending sort for Int lists. -/
def sortInts : List Int → List Int
  | [] => []
  | x :: rest => insertInt x (sortInts rest)

/-- `sorted(priority_groups.keys())`: the distinct task priorities ascending. -/
def sortedPriorities (ctx : OrchCtx) : List Int :=
  sortInts (ctx.tasks.map Task.priority).eraseDups

/-- The mutable run state of `orchestrate` (`OrchestratorState` plus the local
priority-group pointer): settled id sets, in-flight execution and pipeline id
sets, locked files, retry counts (`retry_counts.get(tid, 0)`), group pointer. -/
structure OState where
  completed : Finset String
  failed : Finset String
  active : Finset String
  reviewing : Finset String
  activeFiles : Finset String
  retries : String → Nat
  prioIdx : Nat

/-- The state at the start of a run. -/
def initState : OState :=
  ⟨∅, ∅, ∅, ∅, ∅, fun _ => 0, 0⟩

/-- `current_group_ids` of the dispatch phase: ids of the tasks in the current
priority group, or the empty set when the pointer has run off the groups. -/
def currentGroupIds (ctx : OrchCtx) (s : OState) : Finset String :=
  match (sortedPriorities ctx)[s.prioIdx]? with
  | none => ∅
  | some p => ((ctx.tasks.filter fun t => decide (t.priority = p)).map Task.id).toFinset

/-- The `ready` list of the dispatch phase after the group/settled/in-flight
filter (orchestrator.py lines 1537-1550). -/
def filteredReady (ctx : OrchCtx) (s : OState) : List Task :=
  (get_ready_tasks ctx.tasks s.completed s.activeFiles).filter fun t =>
    decide (t.id ∈ currentGroupIds ctx s) &&
    !(decide (t.id ∈ s.active)) && !(decide (t.id ∈ s.failed)) &&
    !(decide (t.id ∈ s.reviewing)) && !(decide (t.id ∈ s.completed))

/-- How a collected execution future is classified by the loop:
success with a PR, success without a PR, or failure (failed result or raised
exception). -/
inductive WOutcome where
  | prSuccess
  | plainSuccess
  | failure
deriving DecidableEq, Repr

/-- Collecting one finished execution future (orchestrator.py lines
1296-1418): release the task's files, then either hand off to the review
pipeline, complete directly, relaunch as a retry (re-locking the files), or
fail once retries are exhausted. -/
def stepWorkerDone (ctx : OrchCtx) (s : OState) (tid : String) (out : WOutcome) : OState :=
  let files := filesOf ctx tid
  let s1 : OState := { s with active := s.active.erase tid,
                              activeFiles := s.activeFiles \ files }
  match out with
  | .prSuccess => { s1 with reviewing := insert tid s1.reviewing }
  | .plainSuccess => { s1 with completed := insert tid s1.completed }
  | .failure =>
    let rc := s.retries tid
    if rc < ctx.max_retries then
      { s1 with retries := Function.update s.retries tid (rc + 1),
                activeFiles := s1.activeFiles ∪ files,
                active := insert tid s1.active }
    else { s1 with failed := insert tid s1.failed }

/-- Collecting one finished review/fix/merge future (orchestrator.py lines
1424-1484): a merged pipeline completes the task, a failed or crashed one
fails it. -/
def stepReviewDone (s : OState) (tid : String) (merged : Bool) : OState :=
  let s1 : OState := { s with reviewing := s.reviewing.erase tid }
  match merged with
  | true => { s1 with completed := insert tid s1.completed }
  | false => { s1 with failed := insert tid s1.failed }

/-- Dispatching one ready task (orchestrator.py lines 1558-1569): lock its
files and add it to the in-flight execution mapping. -/
def dispatchOne (s : OState) (t : Task) : OState :=
  { s with activeFiles := s.activeFiles ∪ t.files_touched.toFinset,
           active := insert t.id s.active }

/-- The dispatch block of one tick: `for task in ready[:slots]` over the ready
list computed once at the start of the block. -/
def stepDispatch (ctx : OrchCtx) (s : OState) : OState :=
  ((filteredReady ctx s).take (ctx.max_workers - s.active.card)).foldl dispatchOne s

/-- Advancing the priority-group pointer. -/
def stepAdvance (s : OState) : OState := { s with prioIdx := s.prioIdx + 1 }

/-- The advance guard (orchestrator.py line 1498): every id of the current
group is settled and none is in flight. -/
def groupSettled (ctx : OrchCtx) (s : OState) : Prop :=
  currentGroupIds ctx s ⊆ s.completed ∪ s.failed ∧
  Disjoint (currentGroupIds ctx s) (s.active ∪ s.reviewing)

/-- One state-changing event of the orchestration loop. -/
inductive Step (ctx : OrchCtx) : OState → OState → Prop where
  | workerDone (s : OState) (tid : String) (out : WOutcome) (h : tid ∈ s.active) :
      Step ctx s (stepWorkerDone ctx s tid out)
  | reviewDone (s : OState) (tid : String) (merged : Bool) (h : tid ∈ s.reviewing) :
      Step ctx s (stepReviewDone s tid merged)
  | advance (s : OState) (h1 : groupSettled ctx s)
      (h2 : s.prioIdx + 1 < (sortedPriorities ctx).length) :
      Step ctx s (stepAdvance s)
  | dispatch (s : OState) (h1 : filteredReady ctx s ≠ [])
      (h2 : s.active.card < ctx.max_workers) :
      Step ctx s (stepDispatch ctx s)

/-- A run state reachable from the start of the run by loop events. -/
def Reachable (ctx : OrchCtx) (s : OState) : Prop :=
  Relation.ReflTransGen (Step ctx) initState s

/-- The `len(all_settled) == state.total` exit test (orchestrator.py 1525). -/
def allSettled (ctx : OrchCtx) (s : OState) : Prop :=
  (s.completed ∪ s.failed).card = ctx.tasks.length

/-- The two break conditions of the loop (orchestrator.py 1524-1555): all
tasks settled, or nothing active, nothing reviewing, nothing ready. -/
def loop_should_exit (ctx : OrchCtx) (s : OState) : Prop :=
  allSettled ctx s ∨
  (s.active = ∅ ∧ s.reviewing = ∅ ∧ filteredReady ctx s = [])

/-- The ids that were ever dispatched: in flight, in review, or settled. -/
def touchedIds (s : OState) : Finset String :=
  s.active ∪ s.reviewing ∪ s.completed ∪ s.failed

/-- Structural run-state invariant maintained by the loop: the lifecycle sets
are pairwise disjoint, every tracked id names a loaded task, and every
dispatched task had its dependency set completed at dispatch time (hence, by
monotonicity of `completed`, still completed now). -/
structure Inv (ctx : OrchCtx) (s : OState) : Prop where
  dis_ar : Disjoint s.active s.reviewing
  dis_ac : Disjoint s.active s.completed
  dis_af : Disjoint s.active s.failed
  dis_rc : Disjoint s.reviewing s.completed
  dis_rf : Disjoint s.reviewing s.failed
  dis_cf : Disjoint s.completed s.failed
  sub_ids : touchedIds s ⊆ taskIds ctx
  deps_done : ∀ t ∈ ctx.tasks, t.id ∈ touchedIds s → ∀ d ∈ t.depends_on, d ∈ s.completed

theorem inv_init (ctx : OrchCtx) : Inv ctx initState := by
  constructor <;> simp [initState, touchedIds, taskIds]

/-- Union of the touched-file sets of a list of tasks. -/
def filesUnion (L : List Task) : Finset String :=
  L.foldr (fun t acc => t.files_touched.toFinset ∪ acc) ∅

/-- The ids of a list of tasks, as a set. -/
def idsOf (L : List Task) : Finset String := (L.map Task.id).toFinset

theorem foldl_dispatchOne_active (L : List Task) (s : OState) :
    (L.foldl dispatchOne s).active = s.active ∪ idsOf L := by
  induction L generalizing s with
  | nil => simp [idsOf]
  | cons t rest ih =>
    simp only [List.foldl_cons, ih, dispatchOne, idsOf, List.map_cons, List.toFinset_cons]
    rw [Finset.insert_union, Finset.union_insert]

theorem foldl_dispatchOne_activeFiles (L : List Task) (s : OState) :
    (L.foldl dispatchOne s).activeFiles = s.activeFiles ∪ filesUnion L := by
  induction L generalizing s with
  | nil => simp [filesUnion]
  | cons t rest ih =>
    simp only [List.foldl_cons, ih, dispatchOne, filesUnion, List.foldr_cons]
    rw [Finset.union_assoc]

theorem foldl_dispatchOne_completed (L : List Task) (s : OState) :
    (L.foldl dispatchOne s).completed = s.completed := by
  induction L generalizing s with
  | nil => rfl
  | cons t rest ih => simp only [List.foldl_cons, ih, dispatchOne]

theorem foldl_dispatchOne_failed (L : List Task) (s : OState) :
    (L.foldl dispatchOne s).failed = s.failed := by
  induction L generalizing s with
  | nil => rfl
  | cons t rest ih => simp only [List.foldl_cons, ih, dispatchOne]

theorem foldl_dispatchOne_reviewing (L : List Task) (s : OState) :
    (L.foldl dispatchOne s).reviewing = s.reviewing := by
  induction L generalizing s with
  | nil => rfl
  | cons t rest ih => simp only [List.foldl_cons, ih, dispatchOne]

theorem foldl_dispatchOne_retries (L : List Task) (s : OState) :
    (L.foldl dispatchOne s).retries = s.retries := by
  induction L generalizing s with
  | nil => rfl
  | cons t rest ih => simp only [List.foldl_cons, ih, dispatchOne]

theorem foldl_dispatchOne_prioIdx (L : List Task) (s : OState) :
    (L.foldl dispatchOne s).prioIdx = s.prioIdx := by
  induction L generalizing s with
  | nil => rfl
  | cons t rest ih => simp only [List.foldl_cons, ih, dispatchOne]

theorem mem_filteredReady (ctx : OrchCtx) (s : OState) (t : Task) :
    t ∈ filteredReady ctx s ↔
      t ∈ ctx.tasks ∧ t.id ∉ s.completed ∧ (∀ d ∈ t.depends_on, d ∈ s.completed) ∧
      (∀ f ∈ t.files_touched, f ∉ s.activeFiles) ∧
      t.id ∈ currentGroupIds ctx s ∧ t.id ∉ s.active ∧ t.id ∉ s.failed ∧
      t.id ∉ s.reviewing := by
  simp only [filteredReady, List.mem_filter, mem_get_ready_tasks, Bool.and_eq_true,
    Bool.not_eq_true', decide_eq_true_eq, decide_eq_false_iff_not]
  tauto

/-- Tasks dispatched in one batch come from the filtered ready list. -/
theorem mem_take_filteredReady (ctx : OrchCtx) (s : OState) (n : Nat) (t : Task)
    (h : t ∈ (filteredReady ctx s).take n) : t ∈ filteredReady ctx s :=
  (List.take_sublist n _).subset h

theorem disjoint_erase_insert {α : Type} [DecidableEq α] (s t : Finset α) (a : α)
    (h : Disjoint s t) : Disjoint (s.erase a) (insert a t) := by
  rw [Finset.disjoint_left]
  intro x hx
  rw [Finset.mem_erase] at hx
  rw [Finset.mem_insert]
  push_neg
  exact ⟨hx.1, Finset.disjoint_left.mp h hx.2⟩

/-- With unique task ids, two loaded tasks with the same id are equal. -/
theorem task_id_inj (ctx : OrchCtx) (hids : (ctx.tasks.map Task.id).Nodup)
    {t u : Task} (ht : t ∈ ctx.tasks) (hu : u ∈ ctx.tasks) (h : t.id = u.id) : t = u :=
  List.inj_on_of_nodup_map hids ht hu h

/-- Every loop event preserves the structural invariant. -/
theorem inv_step (ctx : OrchCtx) (hids : (ctx.tasks.map Task.id).Nodup)
    {s s' : OState} (hinv : Inv ctx s) (hstep : Step ctx s s') : Inv ctx s' := by
  obtain ⟨dar, dac, daf, drc, drf, dcf, subi, deps⟩ := hinv
  cases hstep with
  | workerDone tid out h =>
    have htid_nr : tid ∉ s.reviewing := Finset.disjoint_left.mp dar h
    have htid_nc : tid ∉ s.completed := Finset.disjoint_left.mp dac h
    have htid_nf : tid ∉ s.failed := Finset.disjoint_left.mp daf h
    cases out with
    | prSuccess =>
      have htsub : ∀ a, a ∈ touchedIds (stepWorkerDone ctx s tid .prSuccess) →
          a ∈ touchedIds s := by
        intro a ha
        simp only [stepWorkerDone, touchedIds, Finset.mem_union, Finset.mem_erase,
          Finset.mem_insert] at ha ⊢
        by_cases hat : a = tid
        · subst hat; tauto
        · tauto
      refine ⟨?_, ?_, ?_, ?_, ?_, dcf, ?_, ?_⟩
      · exact disjoint_erase_insert _ _ _ dar
      · exact Finset.disjoint_of_subset_left (Finset.erase_subset _ _) dac
      · exact Finset.disjoint_of_subset_left (Finset.erase_subset _ _) daf
      · exact Finset.disjoint_insert_left.mpr ⟨htid_nc, drc⟩
      · exact Finset.disjoint_insert_left.mpr ⟨htid_nf, drf⟩
      · exact fun a ha => subi (htsub a ha)
      · exact fun t htm htouch d hd => deps t htm (htsub t.id htouch) d hd
    | plainSuccess =>
      have htsub : ∀ a, a ∈ touchedIds (stepWorkerDone ctx s tid .plainSuccess) →
          a ∈ touchedIds s := by
        intro a ha
        simp only [stepWorkerDone, touchedIds, Finset.mem_union, Finset.mem_erase,
          Finset.mem_insert] at ha ⊢
        by_cases hat : a = tid
        · subst hat; tauto
        · tauto
      refine ⟨?_, ?_, ?_, ?_, drf, ?_, ?_, ?_⟩
      · exact Finset.disjoint_of_subset_left (Finset.erase_subset _ _) dar
      · exact disjoint_erase_insert _ _ _ dac
      · exact Finset.disjoint_of_subset_left (Finset.erase_subset _ _) daf
      · exact Finset.disjoint_insert_right.mpr ⟨htid_nr, drc⟩
      · exact Finset.disjoint_insert_left.mpr ⟨htid_nf, dcf⟩
      · exact fun a ha => subi (htsub a ha)
      · exact fun t htm htouch d hd =>
          Finset.mem_insert_of_mem (deps t htm (htsub t.id htouch) d hd)
    | failure =>
      by_cases hrc : s.retries tid < ctx.max_retries
      · have hact : insert tid (s.active.erase tid) = s.active := Finset.insert_erase h
        simp only [stepWorkerDone, if_pos hrc]
        refine ⟨?_, ?_, ?_, drc, drf, dcf, ?_, ?_⟩
        · simpa [hact] using dar
        · simpa [hact] using dac
        · simpa [hact] using daf
        · intro a ha
          apply subi
          simpa [touchedIds, hact] using ha
        · intro t htm htouch d hd
          apply deps t htm _ d hd
          simpa [touchedIds, hact] using htouch
      · have htsub : ∀ a, a ∈ touchedIds (stepWorkerDone ctx s tid .failure) →
            a ∈ touchedIds s := by
          intro a ha
          simp only [stepWorkerDone, if_neg hrc, touchedIds, Finset.mem_union,
            Finset.mem_erase, Finset.mem_insert] at ha ⊢
          by_cases hat : a = tid
          · subst hat; tauto
          · tauto
        simp only [stepWorkerDone, if_neg hrc] at htsub ⊢
        refine ⟨?_, ?_, ?_, drc, ?_, ?_, ?_, ?_⟩
        · exact Finset.disjoint_of_subset_left (Finset.erase_subset _ _) dar
        · exact Finset.disjoint_of_subset_left (Finset.erase_subset _ _) dac
        · exact disjoint_erase_insert _ _ _ daf
        · exact Finset.disjoint_insert_right.mpr ⟨htid_nr, drf⟩
        · exact Finset.disjoint_insert_right.mpr ⟨htid_nc, dcf⟩
        · exact fun a ha => subi (htsub a ha)
        · exact fun t htm htouch d hd => deps t htm (htsub t.id htouch) d hd
  | reviewDone tid merged h =>
    have htid_na : tid ∉ s.active := Finset.disjoint_right.mp dar h
    have htid_nc : tid ∉ s.completed := Finset.disjoint_left.mp drc h
    have htid_nf : tid ∉ s.failed := Finset.disjoint_left.mp drf h
    have htsub : ∀ a, a ∈ touchedIds (stepReviewDone s tid merged) →
        a ∈ touchedIds s := by
      intro a ha
      cases merged with
      | true =>
        simp only [stepReviewDone, touchedIds, Finset.mem_union,
          Finset.mem_erase, Finset.mem_insert] at ha ⊢
        by_cases hat : a = tid
        · subst hat; tauto
        · tauto
      | false =>
        simp only [stepReviewDone, touchedIds,
          Finset.mem_union, Finset.mem_erase, Finset.mem_insert] at ha ⊢
        by_cases hat : a = tid
        · subst hat; tauto
        · tauto
    cases merged with
    | true =>
      simp only [stepReviewDone] at htsub ⊢
      refine ⟨?_, ?_, daf, ?_, ?_, ?_, ?_, ?_⟩
      · exact Finset.disjoint_of_subset_right (Finset.erase_subset _ _) dar
      · exact Finset.disjoint_insert_right.mpr ⟨htid_na, dac⟩
      · exact disjoint_erase_insert _ _ _ drc
      · exact Finset.disjoint_of_subset_left (Finset.erase_subset _ _) drf
      · exact Finset.disjoint_insert_left.mpr ⟨htid_nf, dcf⟩
      · exact fun a ha => subi (htsub a ha)
      · exact fun t htm htouch d hd =>
          Finset.mem_insert_of_mem (deps t htm (htsub t.id htouch) d hd)
    | false =>
      simp only [stepReviewDone] at htsub ⊢
      refine ⟨?_, dac, ?_, ?_, ?_, ?_, ?_, ?_⟩
      · exact Finset.disjoint_of_subset_right (Finset.erase_subset _ _) dar
      · exact Finset.disjoint_insert_right.mpr ⟨htid_na, daf⟩
      · exact Finset.disjoint_of_subset_left (Finset.erase_subset _ _) drc
      · exact disjoint_erase_insert _ _ _ drf
      · exact Finset.disjoint_insert_right.mpr ⟨htid_nc, dcf⟩
      · exact fun a ha => subi (htsub a ha)
      · exact fun t htm htouch d hd => deps t htm (htsub t.id htouch) d hd
  | advance h1 h2 =>
    exact ⟨dar, dac, daf, drc, drf, dcf, subi, deps⟩
  | dispatch h1 h2 =>
    set L := (filteredReady ctx s).take (ctx.max_workers - s.active.card) with hL
    have hLsub : ∀ u ∈ L, u ∈ filteredReady ctx s := fun u hu =>
      mem_take_filteredReady ctx s _ u hu
    have hids_mem : ∀ a ∈ idsOf L, ∃ u ∈ ctx.tasks, u.id = a ∧
        a ∉ s.active ∧ a ∉ s.reviewing ∧ a ∉ s.completed ∧ a ∉ s.failed ∧
        (∀ d ∈ u.depends_on, d ∈ s.completed) := by
      intro a ha
      simp only [idsOf, List.mem_toFinset, List.mem_map] at ha
      obtain ⟨u, hu, rfl⟩ := ha
      have hur := (mem_filteredReady ctx s u).mp (hLsub u hu)
      exact ⟨u, hur.1, rfl, hur.2.2.2.2.2.1, hur.2.2.2.2.2.2.2, hur.2.1,
        hur.2.2.2.2.2.2.1, hur.2.2.1⟩
    have hdisL : ∀ (X : Finset String), (∀ a ∈ idsOf L, a ∉ X) → Disjoint (idsOf L) X := by
      intro X hX
      rw [Finset.disjoint_left]
      exact hX
    have hact : (stepDispatch ctx s).active = s.active ∪ idsOf L :=
      foldl_dispatchOne_active L s
    have hcom : (stepDispatch ctx s).completed = s.completed :=
      foldl_dispatchOne_completed L s
    have hfai : (stepDispatch ctx s).failed = s.failed :=
      foldl_dispatchOne_failed L s
    have hrev : (stepDispatch ctx s).reviewing = s.reviewing :=
      foldl_dispatchOne_reviewing L s
    refine ⟨?_, ?_, ?_, ?_, ?_, ?_, ?_, ?_⟩
    · rw [hact, hrev, Finset.disjoint_union_left]
      refine ⟨dar, hdisL _ ?_⟩
      intro a ha
      obtain ⟨u, _, _, _, hnr, _, _, _⟩ := hids_mem a ha
      exact hnr
    · rw [hact, hcom, Finset.disjoint_union_left]
      refine ⟨dac, hdisL _ ?_⟩
      intro a ha
      obtain ⟨u, _, _, _, _, hnc, _, _⟩ := hids_mem a ha
      exact hnc
    · rw [hact, hfai, Finset.disjoint_union_left]
      refine ⟨daf, hdisL _ ?_⟩
      intro a ha
      obtain ⟨u, _, _, _, _, _, hnf, _⟩ := hids_mem a ha
      exact hnf
    · rw [hrev, hcom]; exact drc
    · rw [hrev, hfai]; exact drf
    · rw [hcom, hfai]; exact dcf
    · intro a ha
      simp only [touchedIds, hact, hcom, hfai, hrev, Finset.mem_union] at ha
      rcases ha with (((ha | ha) | ha) | ha) | ha
      · exact subi (by simp [touchedIds, ha])
      · obtain ⟨u, hu, rfl, _⟩ := hids_mem a ha
        simp only [taskIds, List.mem_toFinset, List.mem_map]
        exact ⟨u, hu, rfl⟩
      · exact subi (by simp [touchedIds, ha])
      · exact subi (by simp [touchedIds, ha])
      · exact subi (by simp [touchedIds, ha])
    · intro t htm htouch d hd
      rw [hcom]
      simp only [touchedIds, hact, hcom, hfai, hrev, Finset.mem_union] at htouch
      rcases htouch with (((ha | ha) | ha) | ha) | ha
      · exact deps t htm (by simp [touchedIds, ha]) d hd
      · obtain ⟨u, hu, huid, _, _, _, _, hdeps⟩ := hids_mem _ ha
        have hut : u = t := task_id_inj ctx hids hu htm huid
        subst hut
        exact hdeps d hd
      · exact deps t htm (by simp [touchedIds, ha]) d hd
      · exact deps t htm (by simp [touchedIds, ha]) d hd
      · exact deps t htm (by simp [touchedIds, ha]) d hd

/-- The structural invariant holds at every reachable state. -/
theorem inv_reachable (ctx : OrchCtx) (hids : (ctx.tasks.map Task.id).Nodup)
    {s : OState} (h : Reachable ctx s) : Inv ctx s := by
  induction h with
  | refl => exact inv_init ctx
  | tail _ hstep ih => exact inv_step ctx hids ih hstep

/-!  Termination measure for the orchestration loop.  Every loop event
strictly decreases it, so a run performs only finitely many state-changing
events. -/

/-- Remaining-event potential of one task id: an unstarted task can still be
dispatched, retried up to the remaining retry budget, reviewed and settled;
an in-flight task can still use its remaining retries; a reviewing task can
only settle; a settled task is done. -/
def pot (ctx : OrchCtx) (s : OState) (tid : String) : Nat :=
  if tid ∈ s.active then (ctx.max_retries - min (s.retries tid) ctx.max_retries) + 2
  else if tid ∈ s.reviewing then 1
  else if tid ∈ s.completed ∨ tid ∈ s.failed then 0
  else ctx.max_retries + 3

/-- Termination measure: total remaining-event potential of the loaded tasks
plus the number of remaining priority-group advances. -/
def orchMeasure (ctx : OrchCtx) (s : OState) : Nat :=
  (ctx.tasks.map fun t => pot ctx s t.id).sum +
    ((sortedPriorities ctx).length - s.prioIdx)

theorem pot_stepWorkerDone_ne (ctx : OrchCtx) (s : OState) (tid : String)
    (out : WOutcome) (a : String) (ha : a ≠ tid) :
    pot ctx (stepWorkerDone ctx s tid out) a = pot ctx s a := by
  cases out with
  | prSuccess =>
    simp [pot, stepWorkerDone, Finset.mem_erase, Finset.mem_insert, ha]
  | plainSuccess =>
    simp [pot, stepWorkerDone, Finset.mem_erase, Finset.mem_insert, ha]
  | failure =>
    by_cases hrc : s.retries tid < ctx.max_retries
    · simp [pot, stepWorkerDone, if_pos hrc, Finset.mem_erase, Finset.mem_insert, ha,
        Function.update_noteq ha]
    · simp [pot, stepWorkerDone, if_neg hrc, Finset.mem_erase, Finset.mem_insert, ha]

theorem pot_stepReviewDone_ne (s : OState) (ctx : OrchCtx) (tid : String)
    (merged : Bool) (a : String) (ha : a ≠ tid) :
    pot ctx (stepReviewDone s tid merged) a = pot ctx s a := by
  cases merged with
  | true => simp [pot, stepReviewDone, Finset.mem_erase, Finset.mem_insert, ha]
  | false => simp [pot, stepReviewDone, Finset.mem_erase, Finset.mem_insert, ha]

theorem pot_stepWorkerDone_self (ctx : OrchCtx) (s : OState) (tid : String)
    (out : WOutcome) (h : tid ∈ s.active) (hnr : tid ∉ s.reviewing) :
    pot ctx (stepWorkerDone ctx s tid out) tid < pot ctx s tid := by
  have hpot : pot ctx s tid =
      (ctx.max_retries - min (s.retries tid) ctx.max_retries) + 2 := by
    simp [pot, h]
  cases out with
  | prSuccess =>
    have : pot ctx (stepWorkerDone ctx s tid .prSuccess) tid = 1 := by
      simp [pot, stepWorkerDone, Finset.mem_erase, Finset.mem_insert]
    omega
  | plainSuccess =>
    have : pot ctx (stepWorkerDone ctx s tid .plainSuccess) tid = 0 := by
      simp [pot, stepWorkerDone, Finset.mem_erase, Finset.mem_insert, hnr]
    omega
  | failure =>
    by_cases hrc : s.retries tid < ctx.max_retries
    · have : pot ctx (stepWorkerDone ctx s tid .failure) tid =
          (ctx.max_retries - min (s.retries tid + 1) ctx.max_retries) + 2 := by
        simp [pot, stepWorkerDone, if_pos hrc, Finset.mem_insert,
          Function.update_same]
      omega
    · have : pot ctx (stepWorkerDone ctx s tid .failure) tid = 0 := by
        simp [pot, stepWorkerDone, if_neg hrc, Finset.mem_erase, Finset.mem_insert, hnr]
      omega

theorem pot_stepReviewDone_self (s : OState) (ctx : OrchCtx) (tid : String)
    (merged : Bool) (h : tid ∈ s.reviewing) (hna : tid ∉ s.active) :
    pot ctx (stepReviewDone s tid merged) tid < pot ctx s tid := by
  have hpot : pot ctx s tid = 1 := by simp [pot, h, hna]
  cases merged with
  | true =>
    have : pot ctx (stepReviewDone s tid true) tid = 0 := by
      simp [pot, stepReviewDone, Finset.mem_erase, Finset.mem_insert, hna]
    omega
  | false =>
    have : pot ctx (stepReviewDone s tid false) tid = 0 := by
      simp [pot, stepReviewDone, Finset.mem_erase, Finset.mem_insert, hna]
    omega

/-- The task-id sum of the measure: pointwise ≤ plus one strict witness gives
a strict sum decrease. -/
theorem sum_pot_lt (ctx : OrchCtx) (s s' : OState)
    (hle : ∀ t ∈ ctx.tasks, pot ctx s' t.id ≤ pot ctx s t.id)
    (hlt : ∃ t ∈ ctx.tasks, pot ctx s' t.id < pot ctx s t.id) :
    (ctx.tasks.map fun t => pot ctx s' t.id).sum <
      (ctx.tasks.map fun t => pot ctx s t.id).sum :=
  List.sum_lt_sum _ _ hle hlt

/-- Some loaded task carries any id tracked by the run state. -/
theorem exists_task_of_mem_taskIds (ctx : OrchCtx) {a : String}
    (h : a ∈ taskIds ctx) : ∃ t ∈ ctx.tasks, t.id = a := by
  simpa [taskIds, List.mem_toFinset, List.mem_map] using h

/-- Every loop event strictly decreases the termination measure. -/
theorem step_orchMeasure_lt (ctx : OrchCtx) {s s' : OState}
    (hinv : Inv ctx s) (hstep : Step ctx s s') :
    orchMeasure ctx s' < orchMeasure ctx s := by
  obtain ⟨dar, dac, daf, drc, drf, dcf, subi, deps⟩ := hinv
  cases hstep with
  | workerDone tid out h =>
    have hnr : tid ∉ s.reviewing := Finset.disjoint_left.mp dar h
    have htid_tasks : ∃ t ∈ ctx.tasks, t.id = tid :=
      exists_task_of_mem_taskIds ctx (subi (by simp [touchedIds, h]))
    have hprio : (stepWorkerDone ctx s tid out).prioIdx = s.prioIdx := by
      cases out with
      | prSuccess => rfl
      | plainSuccess => rfl
      | failure =>
        by_cases hrc : s.retries tid < ctx.max_retries
        · simp [stepWorkerDone, if_pos hrc]
        · simp [stepWorkerDone, if_neg hrc]
    have hsum : (ctx.tasks.map fun t => pot ctx (stepWorkerDone ctx s tid out) t.id).sum <
        (ctx.tasks.map fun t => pot ctx s t.id).sum := by
      apply sum_pot_lt
      · intro t htm
        by_cases hat : t.id = tid
        · rw [hat]
          exact le_of_lt (pot_stepWorkerDone_self ctx s tid out h hnr)
        · rw [pot_stepWorkerDone_ne ctx s tid out t.id hat]
      · obtain ⟨t, htm, hta⟩ := htid_tasks
        refine ⟨t, htm, ?_⟩
        rw [hta]
        exact pot_stepWorkerDone_self ctx s tid out h hnr
    unfold orchMeasure
    rw [hprio]
    omega
  | reviewDone tid merged h =>
    have hna : tid ∉ s.active := Finset.disjoint_right.mp dar h
    have htid_tasks : ∃ t ∈ ctx.tasks, t.id = tid :=
      exists_task_of_mem_taskIds ctx (subi (by simp [touchedIds, h]))
    have hprio : (stepReviewDone s tid merged).prioIdx = s.prioIdx := by
      cases merged <;> rfl
    have hsum : (ctx.tasks.map fun t => pot ctx (stepReviewDone s tid merged) t.id).sum <
        (ctx.tasks.map fun t => pot ctx s t.id).sum := by
      apply sum_pot_lt
      · intro t htm
        by_cases hat : t.id = tid
        · rw [hat]
          exact le_of_lt (pot_stepReviewDone_self s ctx tid merged h hna)
        · rw [pot_stepReviewDone_ne s ctx tid merged t.id hat]
      · obtain ⟨t, htm, hta⟩ := htid_tasks
        refine ⟨t, htm, ?_⟩
        rw [hta]
        exact pot_stepReviewDone_self s ctx tid merged h hna
    unfold orchMeasure
    rw [hprio]
    omega
  | advance h1 h2 =>
    have hsum : (ctx.tasks.map fun t => pot ctx (stepAdvance s) t.id).sum =
        (ctx.tasks.map fun t => pot ctx s t.id).sum := rfl
    unfold orchMeasure
    rw [hsum]
    have : s.prioIdx < (sortedPriorities ctx).length := by omega
    simp only [stepAdvance]
    omega
  | dispatch h1 h2 =>
    set L := (filteredReady ctx s).take (ctx.max_workers - s.active.card) with hL
    have hLsub : ∀ u ∈ L, u ∈ filteredReady ctx s := fun u hu =>
      mem_take_filteredReady ctx s _ u hu
    have hact : (stepDispatch ctx s).active = s.active ∪ idsOf L :=
      foldl_dispatchOne_active L s
    have hcom : (stepDispatch ctx s).completed = s.completed :=
      foldl_dispatchOne_completed L s
    have hfai : (stepDispatch ctx s).failed = s.failed :=
      foldl_dispatchOne_failed L s
    have hrev : (stepDispatch ctx s).reviewing = s.reviewing :=
      foldl_dispatchOne_reviewing L s
    have hret : (stepDispatch ctx s).retries = s.retries :=
      foldl_dispatchOne_retries L s
    have hprio : (stepDispatch ctx s).prioIdx = s.prioIdx :=
      foldl_dispatchOne_prioIdx L s
    have hLne : L ≠ [] := by
      rw [hL]
      match hfr : filteredReady ctx s with
      | [] => exact absurd hfr h1
      | u :: rest =>
        have hslots : 0 < ctx.max_workers - s.active.card := by omega
        match hms : ctx.max_workers - s.active.card with
        | 0 => omega
        | n + 1 => simp
    have hpot_mem : ∀ u ∈ L, pot ctx (stepDispatch ctx s) u.id < pot ctx s u.id := by
      intro u hu
      have hur := (mem_filteredReady ctx s u).mp (hLsub u hu)
      have hbefore : pot ctx s u.id = ctx.max_retries + 3 := by
        simp [pot, hur.2.2.2.2.2.1, hur.2.2.2.2.2.2.2, hur.2.1, hur.2.2.2.2.2.2.1]
      have hafter : pot ctx (stepDispatch ctx s) u.id =
          (ctx.max_retries - min (s.retries u.id) ctx.max_retries) + 2 := by
        have : u.id ∈ (stepDispatch ctx s).active := by
          rw [hact]
          refine Finset.mem_union_right _ ?_
          simp only [idsOf, List.mem_toFinset, List.mem_map]
          exact ⟨u, hu, rfl⟩
        simp [pot, this, hret]
      omega
    have hsum : (ctx.tasks.map fun t => pot ctx (stepDispatch ctx s) t.id).sum <
        (ctx.tasks.map fun t => pot ctx s t.id).sum := by
      apply sum_pot_lt
      · intro t htm
        by_cases hmem : t.id ∈ idsOf L
        · simp only [idsOf, List.mem_toFinset, List.mem_map] at hmem
          obtain ⟨u, hu, huid⟩ := hmem
          rw [← huid]
          exact le_of_lt (hpot_mem u hu)
        · by_cases hmema : t.id ∈ s.active
          · have : t.id ∈ (stepDispatch ctx s).active := by
              rw [hact]; exact Finset.mem_union_left _ hmema
            simp [pot, this, hmema, hret]
          · have : t.id ∉ (stepDispatch ctx s).active := by
              rw [hact, Finset.mem_union]
              push_neg
              exact ⟨hmema, hmem⟩
            simp [pot, this, hmema, hrev, hcom, hfai, hret]
      · obtain ⟨u, rest, hLm⟩ := List.exists_cons_of_ne_nil hLne
        have hu : u ∈ L := by rw [hLm]; exact List.mem_cons_self u rest
        have hur := (mem_filteredReady ctx s u).mp (hLsub u hu)
        exact ⟨u, hur.1, hpot_mem u hu⟩
    unfold orchMeasure
    rw [hprio]
    omega

/-- A chain of `n` loop events. -/
inductive StepsN (ctx : OrchCtx) : Nat → OState → OState → Prop where
  | refl (s : OState) : StepsN ctx 0 s s
  | tail {n : Nat} {s s' s'' : OState} (hsteps : StepsN ctx n s s')
      (hstep : Step ctx s' s'') : StepsN ctx (n + 1) s s''

theorem stepsN_inv (ctx : OrchCtx) (hids : (ctx.tasks.map Task.id).Nodup)
    {n : Nat} {s s' : OState} (hinv : Inv ctx s) (h : StepsN ctx n s s') :
    Inv ctx s' := by
  induction h with
  | refl => exact hinv
  | tail hsteps hstep ih => exact inv_step ctx hids (ih hinv) hstep

theorem stepsN_measure (ctx : OrchCtx) (hids : (ctx.tasks.map Task.id).Nodup)
    {n : Nat} {s s' : OState} (hinv : Inv ctx s) (h : StepsN ctx n s s') :
    n + orchMeasure ctx s' ≤ orchMeasure ctx s := by
  induction h with
  | refl => omega
  | tail hsteps hstep ih =>
    have hinv' := stepsN_inv ctx hids hinv hsteps
    have hdec := step_orchMeasure_lt ctx hinv' hstep
    have hih := ih hinv
    omega

theorem step_completed_subset (ctx : OrchCtx) {s s' : OState} (h : Step ctx s s') :
    s.completed ⊆ s'.completed := by
  cases h with
  | workerDone tid out h =>
    cases out with
    | prSuccess => exact subset_rfl
    | plainSuccess => exact Finset.subset_insert _ _
    | failure =>
      by_cases hrc : s.retries tid < ctx.max_retries
      · simp only [stepWorkerDone, if_pos hrc]
        exact subset_rfl
      · simp only [stepWorkerDone, if_neg hrc]
        exact subset_rfl
  | reviewDone tid merged h =>
    cases merged with
    | true => exact Finset.subset_insert _ _
    | false => exact subset_rfl
  | advance h1 h2 => exact subset_rfl
  | dispatch h1 h2 =>
    exact le_of_eq (foldl_dispatchOne_completed _ s).symm

theorem step_failed_subset (ctx : OrchCtx) {s s' : OState} (h : Step ctx s s') :
    s.failed ⊆ s'.failed := by
  cases h with
  | workerDone tid out h =>
    cases out with
    | prSuccess => exact subset_rfl
    | plainSuccess => exact subset_rfl
    | failure =>
      by_cases hrc : s.retries tid < ctx.max_retries
      · simp only [stepWorkerDone, if_pos hrc]
        exact subset_rfl
      · simp only [stepWorkerDone, if_neg hrc]
        exact Finset.subset_insert _ _
  | reviewDone tid merged h =>
    cases merged with
    | true => exact subset_rfl
    | false => exact Finset.subset_insert _ _
  | advance h1 h2 => exact subset_rfl
  | dispatch h1 h2 =>
    exact le_of_eq (foldl_dispatchOne_failed _ s).symm

theorem rtg_completed_subset (ctx : OrchCtx) {s s' : OState}
    (h : Relation.ReflTransGen (Step ctx) s s') : s.completed ⊆ s'.completed := by
  induction h with
  | refl => exact subset_rfl
  | tail _ hstep ih => exact ih.trans (step_completed_subset ctx hstep)

theorem rtg_failed_subset (ctx : OrchCtx) {s s' : OState}
    (h : Relation.ReflTransGen (Step ctx) s s') : s.failed ⊆ s'.failed := by
  induction h with
  | refl => exact subset_rfl
  | tail _ hstep ih => exact ih.trans (step_failed_subset ctx hstep)

/-- `completed ∪ failed` never outgrows the loaded ids. -/
theorem settled_subset_taskIds (ctx : OrchCtx) {s : OState} (hinv : Inv ctx s) :
    s.completed ∪ s.failed ⊆ taskIds ctx := by
  intro a ha
  apply hinv.sub_ids
  rw [Finset.mem_union] at ha
  simp only [touchedIds, Finset.mem_union]
  tauto

/-!  Stepping lemmas for the review/fix/merge loop. -/

theorem review_fix_merge_aux_approve (max_fix abs_max : Nat)
    (reviews : Nat → String × Nat) (fixOk : Nat → Bool) (fuel f attempt : Nat)
    (prev : Option Nat) (hfuel : fuel = f + 1)
    (happ : (reviews attempt).1 = "approve") :
    review_fix_merge_aux max_fix abs_max reviews fixOk fuel attempt prev =
      .approvedAt (attempt + 1) := by
  subst hfuel
  simp only [review_fix_merge_aux, happ, if_pos]

theorem review_fix_merge_aux_fail (max_fix abs_max : Nat)
    (reviews : Nat → String × Nat) (fixOk : Nat → Bool) (fuel f attempt : Nat)
    (prev : Option Nat) (hfuel : fuel = f + 1)
    (hne : ¬ (reviews attempt).1 = "approve")
    (hcond : max_fix ≤ attempt ∧
      ((match prev with
        | none => false
        | some p => decide ((reviews attempt).2 < p)) = false ∨
       abs_max ≤ attempt)) :
    review_fix_merge_aux max_fix abs_max reviews fixOk fuel attempt prev =
      .failedAt (attempt + 1) := by
  subst hfuel
  simp only [review_fix_merge_aux, if_neg hne, if_pos hcond]

theorem review_fix_merge_aux_continue (max_fix abs_max : Nat)
    (reviews : Nat → String × Nat) (fixOk : Nat → Bool) (fuel f attempt : Nat)
    (prev : Option Nat) (hfuel : fuel = f + 1)
    (hne : ¬ (reviews attempt).1 = "approve")
    (hcond : ¬ (max_fix ≤ attempt ∧
      ((match prev with
        | none => false
        | some p => decide ((reviews attempt).2 < p)) = false ∨
       abs_max ≤ attempt)))
    (hfix : fixOk attempt = true) :
    review_fix_merge_aux max_fix abs_max reviews fixOk fuel attempt prev =
      review_fix_merge_aux max_fix abs_max reviews fixOk f (attempt + 1)
        (some (reviews attempt).2) := by
  subst hfuel
  simp only [review_fix_merge_aux, if_neg hne, if_neg hcond, hfix]
  simp

/-- The loop always returns within its iteration budget: starting at `attempt`
with `attempt + fuel = abs_max + 1`, it ends with a 1-based round count of at
most `abs_max + 1` (the `exhausted` fall-through is unreachable). -/
theorem review_fix_merge_aux_bound (max_fix abs_max : Nat)
    (reviews : Nat → String × Nat) (fixOk : Nat → Bool)
    (hmf : max_fix ≤ abs_max) :
    ∀ (fuel attempt : Nat) (prev : Option Nat), 1 ≤ fuel →
      attempt + fuel = abs_max + 1 →
      ∃ n, attempt < n ∧ n ≤ abs_max + 1 ∧
        (review_fix_merge_aux max_fix abs_max reviews fixOk fuel attempt prev =
            .approvedAt n ∨
         review_fix_merge_aux max_fix abs_max reviews fixOk fuel attempt prev =
            .failedAt n ∨
         review_fix_merge_aux max_fix abs_max reviews fixOk fuel attempt prev =
            .fixFailedAt n) := by
  intro fuel
  induction fuel with
  | zero => intro attempt prev hf; omega
  | succ f ih =>
    intro attempt prev _ hsum
    by_cases happ : (reviews attempt).1 = "approve"
    · refine ⟨attempt + 1, by omega, by omega, Or.inl ?_⟩
      exact review_fix_merge_aux_approve max_fix abs_max reviews fixOk (f + 1) f
        attempt prev rfl happ
    · by_cases hcond : max_fix ≤ attempt ∧
          ((match prev with
            | none => false
            | some p => decide ((reviews attempt).2 < p)) = false ∨
           abs_max ≤ attempt)
      · refine ⟨attempt + 1, by omega, by omega, Or.inr (Or.inl ?_)⟩
        exact review_fix_merge_aux_fail max_fix abs_max reviews fixOk (f + 1) f
          attempt prev rfl happ hcond
      · by_cases hfix : fixOk attempt = true
        · have hf1 : 1 ≤ f := by
            by_contra hf0
            have hf0' : f = 0 := by omega
            subst hf0'
            have hat : attempt = abs_max := by omega
            exact hcond ⟨by omega, Or.inr (by omega)⟩
          have hrec := ih (attempt + 1) (some (reviews attempt).2) hf1 (by omega)
          obtain ⟨n, hn1, hn2, hres⟩ := hrec
          refine ⟨n, by omega, hn2, ?_⟩
          rw [review_fix_merge_aux_continue max_fix abs_max reviews fixOk (f + 1) f
            attempt prev rfl happ hcond hfix]
          exact hres
        · refine ⟨attempt + 1, by omega, by omega, Or.inr (Or.inr ?_)⟩
          have hfix' : fixOk attempt = false := by
            cases hfo : fixOk attempt with
            | true => exact absurd hfo hfix
            | false => rfl
          simp only [review_fix_merge_aux, if_neg happ, if_neg hcond, hfix', if_true]

/-!  Claim theorems. -/

/-- C2: `get_ready_tasks` is a pure function returning exactly the tasks that
are (a) not completed, (b) dependency-satisfied, (c) file-disjoint from the
locked set, ordered by ascending priority with ties kept in input order; a
task with empty `files_touched` is never excluded on file grounds. -/
theorem get_ready_tasks_contract (tasks : List Task)
    (completed_ids active_files : Finset String) :
    (∀ t : Task, t ∈ get_ready_tasks tasks completed_ids active_files ↔
        t ∈ tasks ∧ t.id ∉ completed_ids ∧ (∀ d ∈ t.depends_on, d ∈ completed_ids) ∧
        (∀ f ∈ t.files_touched, f ∉ active_files)) ∧
    (get_ready_tasks tasks completed_ids active_files).Pairwise
        (fun a b => a.priority ≤ b.priority) ∧
    (∀ k : Int, (get_ready_tasks tasks completed_ids active_files).filter
          (fun t => decide (t.priority = k)) =
        (tasks.filter (readyb completed_ids active_files)).filter
          (fun t => decide (t.priority = k))) ∧
    (∀ t : Task, t.files_touched = [] →
        (t ∈ get_ready_tasks tasks completed_ids active_files ↔
          t ∈ tasks ∧ t.id ∉ completed_ids ∧ ∀ d ∈ t.depends_on, d ∈ completed_ids)) := by
  refine ⟨fun t => mem_get_ready_tasks tasks _ _ t, pairwise_sortByPriority _,
    fun k => filter_sortByPriority _ k, ?_⟩
  intro t ht
  rw [mem_get_ready_tasks]
  simp [ht]

/-- C2 witness: a dependency-free task with no files is ready on an empty run
state. -/
theorem get_ready_tasks_contract_witness :
    (⟨"w", "w", "", [], [], 1, 50, "sonnet"⟩ : Task) ∈
      get_ready_tasks [⟨"w", "w", "", [], [], 1, 50, "sonnet"⟩] ∅ ∅ :=
  ((get_ready_tasks_contract [⟨"w", "w", "", [], [], 1, 50, "sonnet"⟩] ∅ ∅).1
      ⟨"w", "w", "", [], [], 1, 50, "sonnet"⟩).mpr
    ⟨by decide, by decide, by decide, by decide⟩

/-- C3: with `max_fix_attempts = 2` and `extra_attempts_buffer = 3`:
request-changes rounds with non-decreasing error counts fail after the 3rd
review round; the strictly decreasing sequence 5,4,3,2,1 followed by an
approving round with 0 errors runs past the base budget and reaches the
approve branch on round 6; and no run ever uses more than
`max_fix + buffer + 1` review rounds. -/
theorem rfm_fix_budget :
    (∀ (reviews : Nat → String × Nat) (fixOk : Nat → Bool),
        (∀ i, (reviews i).1 = "request_changes") →
        (∀ i, (reviews i).2 ≤ (reviews (i + 1)).2) →
        (∀ i, fixOk i = true) →
        review_fix_merge_sync 2 3 reviews fixOk = .failedAt 3) ∧
    (review_fix_merge_sync 2 3
        (fun i => if i < 5 then ("request_changes", 5 - i) else ("approve", 0))
        (fun _ => true) = .approvedAt 6) ∧
    (∀ (max_fix buffer : Nat) (reviews : Nat → String × Nat) (fixOk : Nat → Bool),
        ∃ n, n ≤ max_fix + buffer + 1 ∧
          (review_fix_merge_sync max_fix buffer reviews fixOk = .approvedAt n ∨
           review_fix_merge_sync max_fix buffer reviews fixOk = .failedAt n ∨
           review_fix_merge_sync max_fix buffer reviews fixOk = .fixFailedAt n)) := by
  refine ⟨?_, ?_, ?_⟩
  · intro reviews fixOk hrc hmono hfix
    have hne : ∀ i, ¬ (reviews i).1 = "approve" := by
      intro i
      rw [hrc i]
      decide
    show review_fix_merge_aux 2 (2 + 3) reviews fixOk (2 + 3 + 1) 0 none = .failedAt 3
    rw [review_fix_merge_aux_continue 2 (2 + 3) reviews fixOk (2 + 3 + 1) (2 + 3) 0
      none rfl (hne 0) (by intro hc; exact absurd hc.1 (by decide)) (hfix 0)]
    rw [review_fix_merge_aux_continue 2 (2 + 3) reviews fixOk (2 + 3) 4 1
      (some (reviews 0).2) (by norm_num) (hne 1)
      (by intro hc; exact absurd hc.1 (by decide)) (hfix 1)]
    rw [review_fix_merge_aux_fail 2 (2 + 3) reviews fixOk 4 3 2
      (some (reviews 1).2) (by norm_num) (hne 2)
      ⟨by decide, Or.inl (decide_eq_false_iff_not.mpr (not_lt.mpr (hmono 1)))⟩]
  · decide
  · intro max_fix buffer reviews fixOk
    have h := review_fix_merge_aux_bound max_fix (max_fix + buffer) reviews fixOk
      (by omega) (max_fix + buffer + 1) 0 none (by omega) (by omega)
    obtain ⟨n, _, hn2, hres⟩ := h
    exact ⟨n, hn2, hres⟩

/-- C3 witness: a constant request-changes stream with 5 errors per round
fails after the 3rd review round. -/
theorem rfm_fix_budget_witness :
    review_fix_merge_sync 2 3 (fun _ => ("request_changes", 5)) (fun _ => true) =
      .failedAt 3 :=
  rfm_fix_budget.1 (fun _ => ("request_changes", 5)) (fun _ => true)
    (fun _ => rfl) (fun _ => le_refl 5) (fun _ => rfl)

/-- C4 counterexample: an accepted response with verdict `approve` and one
error-severity finding is returned with verdict `approve`, so the returned
verdict is not request_changes despite an error finding — the claimed
biconditional fails (the caller overrides only the
request_changes-without-error direction). -/
theorem parse_review_approve_with_error_kept :
    ¬ (∀ (v : String) (sevs : List String) (out : String × List String),
        parse_review v sevs = .ok out →
        (out.1 = "request_changes" ↔ "error" ∈ out.2)) := by
  intro hclaim
  have h := hclaim "approve" ["error"] ("approve", ["error"]) rfl
  have h2 : ("approve" : String) = "request_changes" := h.mpr (by decide)
  exact absurd h2 (by decide)

/-- C4 amended: for every accepted evaluator response, the returned verdict is
`request_changes` iff the evaluator itself said `request_changes` AND at least
one (normalised) finding has severity `error`; the override is applied only in
the request_changes-to-approve direction. -/
theorem parse_review_verdict_characterisation (v : String) (sevs : List String)
    (out : String × List String) (h : parse_review v sevs = .ok out) :
    out.1 = "request_changes" ↔ (v = "request_changes" ∧ "error" ∈ out.2) := by
  unfold parse_review at h
  by_cases hv : v ≠ "approve" ∧ v ≠ "request_changes"
  · rw [if_pos hv] at h
    exact absurd h (by simp)
  · rw [if_neg hv] at h
    have hv' : v = "approve" ∨ v = "request_changes" := by tauto
    by_cases hov : v = "request_changes" ∧
        ((sevs.map normalizeSeverity).any fun c => decide (c = "error")) = false
    · rw [if_pos hov] at h
      simp only [Except.ok.injEq] at h
      subst h
      have hnoerr : "error" ∉ sevs.map normalizeSeverity := by
        intro hmem
        have hany : ((sevs.map normalizeSeverity).any fun c =>
            decide (c = "error")) = true := by
          rw [List.any_eq_true]
          exact ⟨"error", hmem, by decide⟩
        rw [hov.2] at hany
        exact absurd hany (by decide)
      simp [hov.1, hnoerr]
    · rw [if_neg hov] at h
      simp only [Except.ok.injEq] at h
      subst h
      rcases hv' with hva | hvr
      · subst hva
        simp
      · subst hvr
        have herr : "error" ∈ sevs.map normalizeSeverity := by
          have hany : ((sevs.map normalizeSeverity).any fun c =>
              decide (c = "error")) = true := by
            by_contra hfalse
            exact hov ⟨rfl, by
              cases hb : ((sevs.map normalizeSeverity).any fun c =>
                  decide (c = "error")) with
              | true => exact absurd hb hfalse
              | false => rfl⟩
          rw [List.any_eq_true] at hany
          obtain ⟨c, hc, hce⟩ := hany
          have : c = "error" := of_decide_eq_true hce
          rw [← this]
          exact hc
        simp [herr]

/-- C4 amended witness: a request_changes verdict with one error finding is
kept as request_changes. -/
theorem parse_review_verdict_characterisation_witness :
    (("request_changes", ["error"]) : String × List String).1 = "request_changes" ↔
      ("request_changes" = "request_changes" ∧
        "error" ∈ (("request_changes", ["error"]) : String × List String).2) :=
  parse_review_verdict_characterisation "request_changes" ["error"]
    ("request_changes", ["error"]) rfl

/-- C7 counterexample: the empty batch has no duplicate id and no unresolved
dependency, yet `load_tasks` raises instead of returning one task per entry. -/
theorem load_tasks_empty_batch_errors :
    load_tasks ([] : List Task) = .error "No tasks key found in plan" ∧
    (([] : List Task).map Task.id).Nodup ∧
    (∀ t ∈ ([] : List Task), ∀ d ∈ t.depends_on, d ∈ ([] : List Task).map Task.id) := by
  refine ⟨rfl, by simp, by simp⟩

/-- C7 amended: for every nonempty batch, `load_tasks` succeeds iff the ids
are pairwise distinct and every dependency names a task of the batch, in which
case it returns exactly one `Task` per entry (the entries themselves); the
empty batch (or missing `tasks` key) also raises a `ValueError`. -/
theorem load_tasks_contract (raw : List Task) :
    (raw ≠ [] →
      ((∃ ts, load_tasks raw = .ok ts) ↔
        ((raw.map Task.id).Nodup ∧
         ∀ t ∈ raw, ∀ d ∈ t.depends_on, d ∈ raw.map Task.id))) ∧
    (∀ ts, load_tasks raw = .ok ts → ts = raw) ∧
    (raw = [] → load_tasks raw = .error "No tasks key found in plan") := by
  refine ⟨?_, ?_, ?_⟩
  · intro hne
    constructor
    · rintro ⟨ts, hts⟩
      unfold load_tasks at hts
      rw [if_neg hne] at hts
      split at hts
      · exact absurd hts (by simp)
      · rename_i ts0 hgo
        have hts0 : ts0 = raw := load_tasks_go_ok_eq raw ∅ ts0 hgo
        have hnodup := ((load_tasks_go_ok_iff raw ∅).mp ⟨ts0, hgo⟩).1
        refine ⟨hnodup, ?_⟩
        split at hts
        · exact absurd hts (by simp)
        · rename_i hbad
          have hdeps := (find_bad_dep_eq_none_iff ts0 _).mp hbad
          intro t ht d hd
          have hmem := hdeps t (by rw [hts0]; exact ht) d hd
          rw [hts0] at hmem
          simpa using hmem
    · rintro ⟨hnodup, hdeps⟩
      obtain ⟨ts0, hgo⟩ :=
        (load_tasks_go_ok_iff raw ∅).mpr ⟨hnodup, by simp⟩
      have hts0 : ts0 = raw := load_tasks_go_ok_eq raw ∅ ts0 hgo
      subst hts0
      have hbad : find_bad_dep ts0 (ts0.map Task.id).toFinset = none := by
        apply (find_bad_dep_eq_none_iff _ _).mpr
        intro t ht d hd
        rw [List.mem_toFinset]
        exact hdeps t ht d hd
      refine ⟨ts0, ?_⟩
      unfold load_tasks
      rw [if_neg hne]
      simp only [hgo, hbad]
  · intro ts h
    unfold load_tasks at h
    by_cases hraw : raw = []
    · rw [if_pos hraw] at h
      exact absurd h (by simp)
    · rw [if_neg hraw] at h
      split at h
      · exact absurd h (by simp)
      · rename_i ts0 hgo
        split at h
        · exact absurd h (by simp)
        · simp only [Except.ok.injEq] at h
          rw [← h]
          exact load_tasks_go_ok_eq raw ∅ ts0 hgo
  · intro hraw
    subst hraw
    rfl

/-- C7 witness: a two-task batch with a resolvable dependency loads. -/
theorem load_tasks_contract_witness :
    ∃ ts, load_tasks
      [⟨"a", "a", "", [], [], 1, 50, "sonnet"⟩,
       ⟨"b", "b", "", [], ["a"], 1, 50, "sonnet"⟩] = .ok ts :=
  ((load_tasks_contract
      [⟨"a", "a", "", [], [], 1, 50, "sonnet"⟩,
       ⟨"b", "b", "", [], ["a"], 1, 50, "sonnet"⟩]).1 (by decide)).mpr
    ⟨by decide, by decide⟩

/-!  C8: the dry-run planner on A(files=[x], prio=1), B(files=[x], prio=1),
C(files=[y], prio=2, depends_on=[A]). -/

def taskA : Task := ⟨"A", "Task A", "", ["x"], [], 1, 50, "sonnet"⟩

def taskB : Task := ⟨"B", "Task B", "", ["x"], [], 1, 50, "sonnet"⟩

def taskC : Task := ⟨"C", "Task C", "", ["y"], ["A"], 2, 50, "sonnet"⟩

/-- C8 counterexample: wave 2 of the dry-run plan is not exactly `[B]` — the
planner also schedules C in wave 2, because C's dependency A completed in
wave 1, C's file y conflicts with nothing in the wave, and the planner does
not hold a task back to a later wave on priority grounds. -/
theorem dry_run_plan_wave2_not_only_B :
    (dry_run_plan_waves [taskA, taskB, taskC]).1.getD 1 [] ≠ [taskB] := by
  decide

/-- C8 amended: the dry-run planner produces wave 1 = exactly A (B excluded
for its file-x conflict with A), wave 2 = exactly B and C (C runs only after
A completes, but shares wave 2 with B), and reports nothing unschedulable. -/
theorem dry_run_plan_waves_ABC :
    dry_run_plan_waves [taskA, taskB, taskC] = ([[taskA], [taskB, taskC]], []) := by
  decide

/-- C9: the asymmetric suffix matching of the path-authorization check
over-authorizes same-basename files in different directories, in both
directions, so the revert step does not treat them as unauthorized. -/
theorem path_suffix_over_authorizes :
    path_is_authorized "approval.py" ["bot/cogs/approval.py"] = true ∧
    path_is_authorized "bot/cogs/approval.py" ["approval.py"] = true ∧
    "approval.py" ∉ ["bot/cogs/approval.py"] ∧
    "bot/cogs/approval.py" ∉ ["approval.py"] ∧
    unauthorized_files ["approval.py"] ["bot/cogs/approval.py"] = [] ∧
    unauthorized_files ["bot/cogs/approval.py"] ["approval.py"] = [] := by
  refine ⟨by decide, by decide, by decide, by decide, by decide, by decide⟩

/-!  Concrete run configurations for the orchestration-loop theorems. -/

def taskXa : Task := ⟨"a", "Change x first", "", ["x"], [], 1, 50, "sonnet"⟩

def taskXb : Task := ⟨"b", "Change x second", "", ["x"], [], 1, 50, "sonnet"⟩

/-- Two same-priority tasks that both touch file "x", two workers. -/
def ctxAB : OrchCtx := ⟨[taskXa, taskXb], 2, 2⟩

/-- The state after the first dispatch batch of a `ctxAB` run. -/
def c1s1 : OState := stepDispatch ctxAB initState

/-- The state after task "a" then finishes without a PR. -/
def c1s2 : OState := stepWorkerDone ctxAB c1s1 "a" .plainSuccess

/-- C1 (code defect): on the first tick of a run with two same-priority tasks
both touching file "x" and two free worker slots, the dispatch block
dispatches both in one batch — the ready list is computed once, and the loop
at orchestrator.py:1558 performs no intra-batch file-conflict re-check — so
two simultaneously in-flight executions have overlapping non-empty
`files_touched`.  When the first of them finishes, releasing its files empties
the locked set while the second is still in flight, so the locked set no
longer equals the union of `files_touched` over in-flight tasks. -/
theorem same_tick_dispatch_overlaps_files :
    StepsN ctxAB 2 initState c1s2 ∧
    ("a" ∈ c1s1.active ∧ "b" ∈ c1s1.active ∧ taskXa.id = "a" ∧ taskXb.id = "b" ∧
      "x" ∈ taskXa.files_touched ∧ "x" ∈ taskXb.files_touched) ∧
    ("b" ∈ c1s2.active ∧ "x" ∈ filesOf ctxAB "b" ∧ "x" ∉ c1s2.activeFiles) := by
  refine ⟨?_, by decide, by decide⟩
  exact StepsN.tail
    (StepsN.tail (StepsN.refl initState)
      (Step.dispatch initState (by decide) (by decide)))
    (Step.workerDone c1s1 "a" .plainSuccess (by decide))

/-- C5: throughout a run, the completed and failed id sets are disjoint, only
ever grow along every continuation of the run, and a settled id never appears
in the other set, in the in-flight execution mapping, or in the in-flight
pipeline mapping again. -/
theorem settled_ids_disjoint_monotone (ctx : OrchCtx)
    (hids : (ctx.tasks.map Task.id).Nodup) {s s' : OState}
    (hreach : Reachable ctx s) (hrtg : Relation.ReflTransGen (Step ctx) s s') :
    Disjoint s.completed s.failed ∧
    s.completed ⊆ s'.completed ∧ s.failed ⊆ s'.failed ∧
    (∀ tid ∈ s.completed, tid ∉ s'.failed ∧ tid ∉ s'.active ∧ tid ∉ s'.reviewing) ∧
    (∀ tid ∈ s.failed, tid ∉ s'.completed ∧ tid ∉ s'.active ∧ tid ∉ s'.reviewing) := by
  have hinv := inv_reachable ctx hids hreach
  have hreach' : Reachable ctx s' := Relation.ReflTransGen.trans hreach hrtg
  have hinv' := inv_reachable ctx hids hreach'
  have hmc := rtg_completed_subset ctx hrtg
  have hmf := rtg_failed_subset ctx hrtg
  refine ⟨hinv.dis_cf, hmc, hmf, ?_, ?_⟩
  · intro tid htid
    have hc' : tid ∈ s'.completed := hmc htid
    exact ⟨Finset.disjoint_left.mp hinv'.dis_cf hc',
      fun hh => Finset.disjoint_left.mp hinv'.dis_ac hh hc',
      fun hh => Finset.disjoint_left.mp hinv'.dis_rc hh hc'⟩
  · intro tid htid
    have hf' : tid ∈ s'.failed := hmf htid
    exact ⟨Finset.disjoint_right.mp hinv'.dis_cf hf',
      fun hh => Finset.disjoint_left.mp hinv'.dis_af hh hf',
      fun hh => Finset.disjoint_left.mp hinv'.dis_rf hh hf'⟩

/-- C5 witness at the start state of a two-task run. -/
theorem settled_ids_disjoint_monotone_witness :
    Disjoint initState.completed initState.failed ∧
    initState.completed ⊆ initState.completed ∧
    initState.failed ⊆ initState.failed ∧
    (∀ tid ∈ initState.completed,
      tid ∉ initState.failed ∧ tid ∉ initState.active ∧ tid ∉ initState.reviewing) ∧
    (∀ tid ∈ initState.failed,
      tid ∉ initState.completed ∧ tid ∉ initState.active ∧ tid ∉ initState.reviewing) :=
  settled_ids_disjoint_monotone ctxAB (by decide)
    Relation.ReflTransGen.refl Relation.ReflTransGen.refl

/-- C6: the orchestration loop always terminates: every chain of
state-changing loop events from an invariant-satisfying state is bounded by
the termination measure of that state, the loop exits when every task id is
settled, and it exits via the safety valve the moment a tick finds zero
in-flight executions, zero in-flight pipelines, and zero eligible tasks —
even though unsettled tasks remain — so cyclic or missing dependencies or a
permanent file-lock deadlock never produce an infinite loop. -/
theorem orchestrate_loop_terminates (ctx : OrchCtx)
    (hids : (ctx.tasks.map Task.id).Nodup) :
    (∀ (s : OState), Inv ctx s → ∀ (n : Nat) (s' : OState), StepsN ctx n s s' →
        n ≤ orchMeasure ctx s) ∧
    (∀ s : OState, allSettled ctx s → loop_should_exit ctx s) ∧
    (∀ s : OState, s.active = ∅ → s.reviewing = ∅ → filteredReady ctx s = [] →
        loop_should_exit ctx s) := by
  refine ⟨?_, ?_, ?_⟩
  · intro s hinv n s' h
    have := stepsN_measure ctx hids hinv h
    omega
  · intro s h
    exact Or.inl h
  · intro s h1 h2 h3
    exact Or.inr ⟨h1, h2, h3⟩

/-- C6 witness: a one-event run (the first dispatch) respects the bound. -/
theorem orchestrate_loop_terminates_witness :
    (1 : Nat) ≤ orchMeasure ctxAB initState :=
  (orchestrate_loop_terminates ctxAB (by decide)).1 initState (inv_init ctxAB) 1
    (stepDispatch ctxAB initState)
    (StepsN.tail (StepsN.refl initState) (Step.dispatch initState (by decide) (by decide)))

/-- C10: from the moment a dependency d of task T is in the failed set, in
that state and every later state of the run T is never in the in-flight
execution or pipeline mappings, never completed, never failed, never in the
eligible list (eligibility requires d completed, impossible since completed
and failed are disjoint), and the loop's all-settled exit can never fire, so
only the safety valve can end the run, leaving T unsettled. -/
theorem failed_dependency_blocks_dependents (ctx : OrchCtx)
    (hids : (ctx.tasks.map Task.id).Nodup) {s s' : OState}
    (hreach : Reachable ctx s) (hrtg : Relation.ReflTransGen (Step ctx) s s')
    (T : Task) (hT : T ∈ ctx.tasks) (d : String) (hd : d ∈ T.depends_on)
    (hfail : d ∈ s.failed) :
    T.id ∉ s'.active ∧ T.id ∉ s'.reviewing ∧ T.id ∉ s'.completed ∧
    T.id ∉ s'.failed ∧ T ∉ filteredReady ctx s' ∧ ¬ allSettled ctx s' := by
  have hreach' : Reachable ctx s' := Relation.ReflTransGen.trans hreach hrtg
  have hinv' := inv_reachable ctx hids hreach'
  have hfail' : d ∈ s'.failed := rtg_failed_subset ctx hrtg hfail
  have hdnc : d ∉ s'.completed := Finset.disjoint_right.mp hinv'.dis_cf hfail'
  have htouch : T.id ∉ touchedIds s' := by
    intro ht
    exact hdnc (hinv'.deps_done T hT ht d hd)
  have hna : T.id ∉ s'.active := fun hh => htouch (by simp [touchedIds, hh])
  have hnr : T.id ∉ s'.reviewing := fun hh => htouch (by simp [touchedIds, hh])
  have hnc : T.id ∉ s'.completed := fun hh => htouch (by simp [touchedIds, hh])
  have hnf : T.id ∉ s'.failed := fun hh => htouch (by simp [touchedIds, hh])
  refine ⟨hna, hnr, hnc, hnf, ?_, ?_⟩
  · intro hrdy
    exact hdnc (((mem_filteredReady ctx s' T).mp hrdy).2.2.1 d hd)
  · intro hall
    have hsub : s'.completed ∪ s'.failed ⊆ taskIds ctx :=
      settled_subset_taskIds ctx hinv'
    have hTmem : T.id ∈ taskIds ctx := by
      simp only [taskIds, List.mem_toFinset, List.mem_map]
      exact ⟨T, hT, rfl⟩
    have hTnot : T.id ∉ s'.completed ∪ s'.failed := by
      rw [Finset.mem_union]
      push_neg
      exact ⟨hnc, hnf⟩
    have hss : s'.completed ∪ s'.failed ⊂ taskIds ctx :=
      (Finset.ssubset_iff_of_subset hsub).mpr ⟨T.id, hTmem, hTnot⟩
    have hlt := Finset.card_lt_card hss
    have hcard : (taskIds ctx).card ≤ ctx.tasks.length := by
      have hle := List.toFinset_card_le (ctx.tasks.map Task.id)
      simpa [taskIds] using hle
    rw [allSettled] at hall
    omega

/-!  Concrete run for the C10 witness: task "t" depends on task "d", the run
has no retries, and "d" fails on its first execution. -/

def taskD0 : Task := ⟨"d", "Task d", "", [], [], 1, 50, "sonnet"⟩

def taskT0 : Task := ⟨"t", "Task t", "", [], ["d"], 1, 50, "sonnet"⟩

def ctxDT : OrchCtx := ⟨[taskD0, taskT0], 0, 2⟩

/-- State after the first dispatch of a `ctxDT` run: "d" in flight. -/
def c10s1 : OState := stepDispatch ctxDT initState

/-- State after the execution of "d" fails with no retries left. -/
def c10s2 : OState := stepWorkerDone ctxDT c10s1 "d" .failure

/-- C10 witness: after "d" fails, "t" is unstarted, ineligible, unsettled,
and the run cannot exit through the all-settled branch. -/
theorem failed_dependency_blocks_dependents_witness :
    taskT0.id ∉ c10s2.active ∧ taskT0.id ∉ c10s2.reviewing ∧
    taskT0.id ∉ c10s2.completed ∧ taskT0.id ∉ c10s2.failed ∧
    taskT0 ∉ filteredReady ctxDT c10s2 ∧ ¬ allSettled ctxDT c10s2 :=
  failed_dependency_blocks_dependents ctxDT (by decide)
    (Relation.ReflTransGen.tail
      (Relation.ReflTransGen.tail Relation.ReflTransGen.refl
        (Step.dispatch initState (by decide) (by decide)))
      (Step.workerDone c10s1 "d" .failure (by decide)))
    Relation.ReflTransGen.refl taskT0 (by decide) "d" (by decide) (by decide)

end AgentShop
